import Mathlib

/-!
Verification development for the lexical record-linkage core of the
WaterRightsAnomalies repository (src/DataManager/ManipulateData.py and
src/DataManager/MetodoLexico.py).

Shallow embedding conventions:
* Python strings are `String` / `List Char`; `None` is `Option.none`.
* Python floats are modelled as `ℚ` (all thresholds in the code are exact
  decimals and all comparisons happen far from representation error).
* `unicodedata.normalize('NFD', ·)` followed by `.encode('ascii','ignore')`
  is modelled by `asciiFold` below: ASCII scalars are fixed, the Latin-1
  accented letters decompose to their base letter (the combining mark is
  non-ASCII and dropped), and other non-ASCII scalars — in particular
  U+00D8 / U+00F8, the slashed O, which have no canonical decomposition —
  are dropped entirely.
* `math.sqrt` (an external, real-valued operation) is a parameter of the
  cosine definitions; closed evaluations instantiate it with `ratSqrt`,
  which agrees with the real square root on perfect squares (the only
  points where closed evaluations ever sample it).
* `difflib.SequenceMatcher.get_opcodes()` (standard library) is modelled
  by passing the opcode list, with its aligned subranges, as an argument.
* `jellyfish.jaro_winkler_similarity` and `rapidfuzz.fuzz.token_set_ratio`
  are external library calls; their values `jw` and `ts` enter
  `score_y_clase` as arguments, exactly as the code consumes them.
-/

namespace WRA

/-- Whitespace test for the ASCII repertoire: models Python's regex class
of blank characters (space, tab, LF, VT, FF, CR) as it applies to the
pure-ASCII strings produced by the fold step. -/
def isSpaceChar (c : Char) : Bool :=
  c.toNat = 32 || c.toNat = 9 || c.toNat = 10 || c.toNat = 11 ||
  c.toNat = 12 || c.toNat = 13

/-- The punctuation set stripped by step 3 of `_estandarizar_texto`:
period (46), comma (44), parentheses (40, 41), double quote (34),
apostrophe (39) — the characters of the pattern in the source. -/
def isPunctStrip (c : Char) : Bool :=
  c.toNat = 46 || c.toNat = 44 || c.toNat = 40 || c.toNat = 41 ||
  c.toNat = 34 || c.toNat = 39

/-- Models Python `str.upper()` on the ASCII repertoire (every string
reaching the upper-casing step is pure ASCII); identical to the basic
Latin mapping of `Char.toUpper`. -/
def pyUpper (c : Char) : Char :=
  if 97 ≤ c.toNat ∧ c.toNat ≤ 122 then Char.ofNat (c.toNat - 32) else c

/-- Decomposition table: the Latin-1 accented letters and their base
(ASCII) letters; the combining mark of the NFD decomposition is non-ASCII
and therefore dropped by the encoding. -/
def foldTable : List (Nat × Char) :=
  [(225, 'a'), (224, 'a'), (226, 'a'), (227, 'a'), (228, 'a'),
   (193, 'A'), (192, 'A'), (194, 'A'), (195, 'A'), (196, 'A'),
   (233, 'e'), (232, 'e'), (234, 'e'), (235, 'e'),
   (201, 'E'), (200, 'E'), (202, 'E'), (203, 'E'),
   (237, 'i'), (236, 'i'), (238, 'i'), (239, 'i'),
   (205, 'I'), (204, 'I'), (206, 'I'), (207, 'I'),
   (243, 'o'), (242, 'o'), (244, 'o'), (245, 'o'), (246, 'o'),
   (211, 'O'), (210, 'O'), (212, 'O'), (213, 'O'), (214, 'O'),
   (250, 'u'), (249, 'u'), (251, 'u'), (252, 'u'),
   (218, 'U'), (217, 'U'), (219, 'U'), (220, 'U'),
   (241, 'n'), (209, 'N'), (231, 'c'), (199, 'C')]

/-- Models `unicodedata.normalize('NFD', s)` composed with
`s.encode('ascii','ignore')`, per scalar: ASCII is fixed; Latin-1 accented
letters lose their (non-ASCII) combining mark and keep the base letter;
scalars with no canonical decomposition — notably U+00D8 and U+00F8, the
slashed O (216, 248) — are dropped by the ASCII encoding. -/
def asciiFold (c : Char) : List Char :=
  if c.toNat < 128 then [c]
  else
    match foldTable.find? (fun kv => kv.1 = c.toNat) with
    | some kv => [kv.2]
    | none => []

/-- Splits a character list into its maximal runs of non-whitespace
characters, dropping the whitespace: the common semantics of Python's
`s.split()` and of `re.split` on a blank-run pattern with empty fragments
discarded. The accumulator holds the current token reversed. -/
def wsTokensAux : List Char → List Char → List (List Char)
  | [], acc => if acc.isEmpty then [] else [acc.reverse]
  | c :: cs, acc =>
    if isSpaceChar c then
      (if acc.isEmpty then [] else [acc.reverse]) ++ wsTokensAux cs []
    else wsTokensAux cs (c :: acc)

/-- Whitespace-delimited tokens of a character list. -/
def wsTokens (cs : List Char) : List (List Char) := wsTokensAux cs []

/-- Joins token character lists with a single space: Python `" ".join`. -/
def joinSp : List (List Char) → List Char
  | [] => []
  | [t] => t
  | t :: ts => t ++ ' ' :: joinSp ts

/-- The stopword catalog of `ManipulateData.py` (common Spanish
connectors), a process-wide constant. -/
def STOPWORDS : List String :=
  ["DE", "DEL", "LA", "EL", "LOS", "LAS", "Y", "E", "AL", "A", "EN",
   "POR", "PARA", "CON"]

/-- The mercantile / institutional term catalog of `ManipulateData.py`,
a process-wide constant. -/
def MERCANTILES_O_INST : List String :=
  ["SA", "SAPI", "CV", "RL", "SRL", "SC", "AC", "SCL", "SNC", "SPR",
   "SOCIEDAD", "ANONIMA", "RESPONSABILIDAD", "LIMITADA", "PROMOTORA",
   "INVERSION", "COOPERATIVA", "COOP", "CAPITAL", "VARIABLE",
   "H", "AYUNTAMIENTO", "MUNICIPAL", "MUNICIPIO", "LOC", "EJIDO",
   "COMUNIDAD", "COLONIA", "DELEGACION", "ALCALDIA"]

/-- Step 1 of `_estandarizar_texto`: NFD-decompose and ASCII-fold. -/
def foldChars (cs : List Char) : List Char := cs.flatMap asciiFold

/-- Step 2 of `_estandarizar_texto`: `replace("Ø","O")`,
`replace("ø","O")` (codes 216, 248), then `replace("&", " Y ")`
(code 38). -/
def replaceSimple (cs : List Char) : List Char :=
  ((cs.map (fun c => if c.toNat = 216 then 'O' else c)).map
      (fun c => if c.toNat = 248 then 'O' else c)).flatMap
    (fun c => if c.toNat = 38 then [' ', 'Y', ' '] else [c])

/-- Step 3 of `_estandarizar_texto`: each stripped punctuation character
becomes a single space. -/
def stripPunct (cs : List Char) : List Char :=
  cs.map (fun c => if isPunctStrip c then ' ' else c)

/-- Step 4 of `_estandarizar_texto`: collapse every whitespace run to one
space and trim both ends (`re.sub` of a blank-run pattern with a space,
then `strip()`). -/
def collapseWs (cs : List Char) : List Char := joinSp (wsTokens cs)

/-- Step 5 of `_estandarizar_texto`: upper-case. -/
def upperChars (cs : List Char) : List Char := cs.map pyUpper

/-- Steps 1-5 of `_estandarizar_texto` composed, before tokenization. -/
def pipelineChars (t : String) : List Char :=
  upperChars (collapseWs (stripPunct (replaceSimple (foldChars t.data))))

/-- Step 6 head of `_estandarizar_texto`: `texto.split()`. -/
def pipelineToks (t : String) : List String :=
  (wsTokens (pipelineChars t)).map String.mk

/-- Step 6 filters of `_estandarizar_texto`, in the source's order:
mercantile / institutional terms, then stopwords, then single-letter
tokens. -/
def applyFilters (merc stop one : Bool) (toks : List String) : List String :=
  let t1 := if merc
    then toks.filter (fun tk => !(decide (tk ∈ MERCANTILES_O_INST))) else toks
  let t2 := if stop
    then t1.filter (fun tk => !(decide (tk ∈ STOPWORDS))) else t1
  if one then t2.filter (fun tk => decide (1 < tk.length)) else t2

/-- Embedding of `ManipulateData._estandarizar_texto`: `None` and
non-string inputs return `None`; otherwise fold, substitute, strip
punctuation, collapse whitespace, upper-case, tokenize, filter
(mercantile terms, stopwords, single-letter tokens, in that order),
re-join with single spaces, and optionally remove all spaces. -/
def _estandarizar_texto (texto : Option String)
    (sin_espacios sin_stopword sin_terminos_mercantiles
      quitar_tokens_1_letra : Bool) : Option String :=
  match texto with
  | none => none
  | some t =>
    let toks := applyFilters sin_terminos_mercantiles sin_stopword
      quitar_tokens_1_letra (pipelineToks t)
    let s := joinSp (toks.map String.data)
    some (String.mk (if sin_espacios then s.filter (fun c => decide (c ≠ ' ')) else s))

/-- Embedding of `MetodoLexico.normalization_and_soft_standardization`
restricted to one string: the soft configuration (spaces kept, stopwords,
mercantile terms and single-letter tokens removed), with the `or ""`
coercion the engine applies to the result. -/
def soft_std (s : String) : String :=
  (_estandarizar_texto (some s) false true true true).getD ""

/-- Embedding of `MetodoLexico.length_prefilter`. Lengths are those of
the soft-standardized strings. `int(round(0.20 * lmax))` is modelled by
`(2 * lmax + 5) / 10` in natural division: the exact value `lmax / 5` has
fractional part in `{0, .2, .4, .6, .8}`, never half, so nearest-integer
rounding is unambiguous and equals this floor form. -/
def length_prefilter (base_abs : Nat) (rel_long : ℚ) (len_a len_b : Nat) : Bool :=
  let lmax := max len_a len_b
  if lmax ≤ 3 then false
  else
    let abs_thr := max base_abs ((2 * lmax + 5) / 10)
    let rel_thr : ℚ := if lmax < 10 then 0.40 else rel_long
    let gap_abs := max len_a len_b - min len_a len_b
    let gap_rel : ℚ := (gap_abs : ℚ) / (lmax : ℚ)
    decide (abs_thr < gap_abs) && decide (rel_thr < gap_rel)

/-- Embedding of `MetodoLexico._tokens`: whitespace-split with empty
fragments discarded. -/
def _tokens (s : String) : List String := (wsTokens s.data).map String.mk

/-- The divisor of the Jaccard quotient as written in the source:
`len(A | B) if (A or B) else 1`. -/
def jaccard_union_div (A B : Finset String) : Nat :=
  if A ≠ ∅ ∨ B ≠ ∅ then (A ∪ B).card else 1

/-- Embedding of `MetodoLexico.jaccard_similarity` over the soft
standardized strings: `0.0` when both token sets are empty, otherwise
`100 * |A ∩ B| / |A ∪ B|`. -/
def jaccard_similarity (a_std b_std : String) : ℚ :=
  let A := (_tokens a_std).toFinset
  let B := (_tokens b_std).toFinset
  if A = ∅ ∧ B = ∅ then 0
  else 100 * ((A ∩ B).card : ℚ) / (jaccard_union_div A B : ℚ)

/-- Increment the count of a q-gram in the profile (Python
`d[g] = d.get(g, 0) + 1` over a dict modelled as an association list). -/
def bumpKey (d : List (List Char × Nat)) (g : List Char) : List (List Char × Nat) :=
  match d with
  | [] => [(g, 1)]
  | (k, v) :: rest => if k = g then (k, v + 1) :: rest else (k, v) :: bumpKey rest g

/-- Lookup with default 0 (Python `d.get(k, 0)`). -/
def getCount (d : List (List Char × Nat)) (k : List Char) : Nat :=
  match d with
  | [] => 0
  | (g, v) :: rest => if g = k then v else getCount rest k

/-- Embedding of `MetodoLexico._qgram_vec`: empty profile for the empty
string, else upper-case and count the `max(0, len(s) - q + 1)` sliding
windows `s[i : i + q]`. -/
def _qgram_vec (s : String) (q : Nat) : List (List Char × Nat) :=
  if s = "" then []
  else
    let u := s.data.map pyUpper
    let grams := (List.range ((max 0 ((u.length : Int) - (q : Int) + 1)).toNat)).map
      (fun i => (u.drop i).take q)
    grams.foldl bumpKey []

/-- The dot product of two q-gram profiles over the union of their keys,
as written in the source. -/
def cosDot (a b : List (List Char × Nat)) : ℚ :=
  (((a.map Prod.fst ++ b.map Prod.fst).dedup).map
    (fun k => ((getCount a k : ℚ) * (getCount b k : ℚ)))).sum

/-- The Euclidean norm of a profile's count vector, with `math.sqrt`
abstracted as the parameter `sq`. -/
def cosNorm (sq : ℚ → ℚ) (a : List (List Char × Nat)) : ℚ :=
  sq ((a.map (fun kv => ((kv.2 : ℚ) * (kv.2 : ℚ)))).sum)

/-- Embedding of `MetodoLexico._cosine_counts`: `0.0` when either profile
is empty, `0.0` when either norm is zero, else `dot / (na * nb)`. -/
def _cosine_counts (sq : ℚ → ℚ) (a b : List (List Char × Nat)) : ℚ :=
  if a = [] ∨ b = [] then 0
  else
    let na := cosNorm sq a
    let nb := cosNorm sq b
    if na = 0 ∨ nb = 0 then 0 else cosDot a b / (na * nb)

/-- Embedding of `MetodoLexico.cosine_qgrams` over soft-standardized
strings, scaled to a percentage. -/
def cosine_qgrams (sq : ℚ → ℚ) (a_std b_std : String) (q : Nat) : ℚ :=
  100 * _cosine_counts sq (_qgram_vec a_std q) (_qgram_vec b_std q)

/-- Largest natural whose square does not exceed `n`, computed by direct
search; a structurally-recursive stand-in used to instantiate the
abstract square root at perfect squares in closed evaluations. -/
def natSqrtFind (n : Nat) : Nat :=
  ((List.range (n + 1)).filter (fun k => decide (k * k ≤ n))).foldl max 0

/-- Concrete stand-in for `math.sqrt` on rationals, exact on perfect
squares of naturals — the only points where closed evaluations sample
the square root. -/
def ratSqrt (x : ℚ) : ℚ := (natSqrtFind x.num.toNat : ℚ) / (natSqrtFind x.den : ℚ)

/-- Tags of `difflib.SequenceMatcher.get_opcodes()`. -/
inductive DiffTag
  | equal
  | replace
  | delete
  | insert
deriving DecidableEq

/-- One opcode of the edit script, carrying the aligned subranges
`a[i1:i2]` and `b[j1:j2]` it refers to. -/
structure Opcode where
  tag : DiffTag
  a_sub : List Char
  b_sub : List Char

/-- The sentinel the source uses for an absent side of a character edit
(the code point U+2205). -/
def absentChar : Char := Char.ofNat 8709

/-- Expansion of one opcode into character pairs, as the source's loop
body writes them: `replace` pairs the first `min` characters and emits
the excess of `a` as deletions then the excess of `b` as insertions;
`delete` and `insert` emit one pair per character. -/
def expandOpcode (op : Opcode) : List (Char × Char) :=
  match op.tag with
  | .equal => []
  | .replace =>
    let m := min op.a_sub.length op.b_sub.length
    (op.a_sub.zip op.b_sub)
      ++ (op.a_sub.drop m).map (fun ch => (ch, absentChar))
      ++ (op.b_sub.drop m).map (fun ch => (absentChar, ch))
  | .delete => op.a_sub.map (fun ch => (ch, absentChar))
  | .insert => op.b_sub.map (fun ch => (absentChar, ch))

/-- The source's final dedup loop: a `seen` set gates insertion into the
output sequence. -/
def uniqAux (seen : List (Char × Char)) : List (Char × Char) → List (Char × Char)
  | [] => []
  | p :: ps =>
    if p ∈ seen then uniqAux seen ps else p :: uniqAux (p :: seen) ps

/-- Embedding of `MetodoLexico.conflicting_characters` over a given
opcode list: expand every opcode in order, then deduplicate keeping the
first occurrence of each pair. -/
def conflicting_characters (ops : List Opcode) : List (Char × Char) :=
  uniqAux [] (ops.flatMap expandOpcode)

/-- Verdict encoding of the source: class 1. -/
def SAME : Nat := 1
/-- Verdict encoding of the source: class 0. -/
def DIFFERENT : Nat := 0
/-- Verdict encoding of the source: class 2. -/
def INDETERMINATE : Nat := 2

/-- Embedding of `MetodoLexico.score_y_clase`. `sq` abstracts
`math.sqrt`; `jw` and `ts` are the values of the two external-library
metrics on the original pair; `ops` is the opcode list of
`difflib.SequenceMatcher` on the original pair. The gate short-circuits
to `(0, DIFFERENT, [])` before any metric is computed; otherwise the
conservative rules classify and the aggregate score is
`0.4*jw + 0.4*ts + 0.2*cq` (the Jaccard value feeds only the SAME rule). -/
def score_y_clase (sq : ℚ → ℚ) (jw ts : ℚ) (ops : List Opcode) (a b : String) :
    ℚ × Nat × List (Char × Char) :=
  let a_std := soft_std a
  let b_std := soft_std b
  if length_prefilter 5 0.5 a_std.length b_std.length then (0, DIFFERENT, [])
  else
    let cq := cosine_qgrams sq a_std b_std 3
    let jac := jaccard_similarity a_std b_std
    let same := (93 ≤ jw ∧ 93 ≤ ts) ∨ (95 ≤ ts ∧ 92 ≤ cq) ∨ (90 ≤ jw ∧ 75 ≤ jac)
    let diff := jw < 85 ∧ ts < 85
    let clase := if same then SAME else if diff then DIFFERENT else INDETERMINATE
    let score := 0.4 * jw + 0.4 * ts + 0.2 * cq
    (score, clase, if clase = SAME then conflicting_characters ops else [])

/-- Reference formulation of first-occurrence deduplication: keep the
head and recursively deduplicate the tail purged of the head. -/
def dedupKeepFirst : List (Char × Char) → List (Char × Char)
  | [] => []
  | p :: ps => p :: dedupKeepFirst (ps.filter (fun x => decide (x ≠ p)))
termination_by l => l.length
decreasing_by
  simp only [List.length_cons]
  exact Nat.lt_succ_of_le (List.length_filter_le _ _)

/-- The claim's reading of the opcode expansion: for `replace`, the
`m = min` paired substitutions `(a_sub[k], b_sub[k])`, then the excess
of `a` as deletions and the excess of `b` as insertions; per-character
pairs for `delete` and `insert`. -/
def claimExpand (op : Opcode) : List (Char × Char) :=
  match op.tag with
  | .equal => []
  | .replace =>
    let m := min op.a_sub.length op.b_sub.length
    ((List.range m).map
        (fun k => (op.a_sub.getD k absentChar, op.b_sub.getD k absentChar)))
      ++ (op.a_sub.drop m).map (fun ch => (ch, absentChar))
      ++ (op.b_sub.drop m).map (fun ch => (absentChar, ch))
  | .delete => op.a_sub.map (fun ch => (ch, absentChar))
  | .insert => op.b_sub.map (fun ch => (absentChar, ch))

theorem zip_eq_range_getD (l1 l2 : List Char) :
    l1.zip l2 = (List.range (min l1.length l2.length)).map
      (fun k => (l1.getD k absentChar, l2.getD k absentChar)) := by
  induction l1 generalizing l2 with
  | nil => simp
  | cons c cs ih =>
    cases l2 with
    | nil => simp
    | cons d ds =>
      have hmin : min (c :: cs).length (d :: ds).length = min cs.length ds.length + 1 := by
        simp only [List.length_cons]
        omega
      rw [List.zip_cons_cons, hmin, List.range_succ_eq_map, List.map_cons, List.map_map]
      congr 1
      rw [ih ds]
      exact List.map_congr_left (fun k _ => by simp [Function.comp])

theorem expandOpcode_eq_claimExpand (op : Opcode) :
    expandOpcode op = claimExpand op := by
  cases h : op.tag <;> simp [expandOpcode, claimExpand, h, zip_eq_range_getD]

theorem uniqAux_eq_dedupKeepFirst (l : List (Char × Char)) :
    ∀ seen, uniqAux seen l = dedupKeepFirst (l.filter (fun x => decide (x ∉ seen))) := by
  induction l with
  | nil => intro seen; simp [uniqAux, dedupKeepFirst]
  | cons p ps ih =>
    intro seen
    by_cases hp : p ∈ seen
    · have hd : (decide (p ∉ seen) : Bool) = false := by simp [hp]
      simp only [uniqAux, if_pos hp, List.filter_cons, hd, Bool.false_eq_true, if_false]
      exact ih seen
    · have hd : (decide (p ∉ seen) : Bool) = true := by simp [hp]
      simp only [uniqAux, if_neg hp, List.filter_cons, hd, if_true]
      rw [dedupKeepFirst, ih (p :: seen), List.filter_filter]
      refine congrArg (p :: dedupKeepFirst ·) (List.filter_congr ?_)
      intro x _
      simp only [List.mem_cons, decide_eq_true_eq, not_or]
      by_cases hxp : x = p <;> by_cases hxs : x ∈ seen <;>
        simp [hxp, hxs]

/-- C4. For every opcode list, `conflicting_characters` expands each
non-equal opcode — a `replace` into its `min`-length paired
substitutions followed by the excess of `a` as deletions and the excess
of `b` as insertions, a `delete` into per-character deletions, an
`insert` into per-character insertions — and deduplicates the
concatenated pair list keeping first-occurrence order. -/
theorem C4_conflicting_characters_expansion (ops : List Opcode) :
    conflicting_characters ops = dedupKeepFirst (ops.flatMap claimExpand) := by
  unfold conflicting_characters
  rw [uniqAux_eq_dedupKeepFirst]
  have hexp : ops.flatMap expandOpcode = ops.flatMap claimExpand := by
    induction ops with
    | nil => rfl
    | cons op rest ih => simp [expandOpcode_eq_claimExpand, ih]
  rw [hexp]
  refine congrArg dedupKeepFirst (List.filter_eq_self.mpr ?_)
  intro x _
  simp

/-- C9. Normalizing an absent input returns an absent result at once,
for every configuration. -/
theorem C9_none_propagation (sin_espacios sin_stopword
    sin_terminos_mercantiles quitar_tokens_1_letra : Bool) :
    _estandarizar_texto none sin_espacios sin_stopword
      sin_terminos_mercantiles quitar_tokens_1_letra = none := rfl

/-- C5 evaluation at the failing input: the ASCII fold removes the
slashed O (U+00D8, no canonical decomposition) before the
`replace("Ø","O")` line can see it, so the input containing a slashed O
loses the letter instead of gaining an `O` — the output is `"BJRN"`,
not `"BJORN"`. -/
theorem C5_slashed_O_is_dropped :
    _estandarizar_texto (some "BJØRN") false false false false = some "BJRN"
      ∧ ∀ c ∈ ("BJRN" : String).data, c.toNat ≠ 79 := by
  constructor
  · decide
  · decide

/-- C3 counterexample: with `strip_spaces` and `remove_stopwords` both
on, `"PA RA"` normalizes to `"PARA"`, which the second pass recognizes
as a stopword and erases — normalization is not idempotent for every
configuration. -/
theorem C3_cex_not_idempotent :
    _estandarizar_texto (_estandarizar_texto (some "PA RA") true true false false)
        true true false false
      ≠ _estandarizar_texto (some "PA RA") true true false false := by
  decide

theorem foldl_bumpKey_empty_grams (n k : Nat) :
    List.foldl bumpKey [(([] : List Char), k)] (List.replicate n []) = [([], k + n)] := by
  induction n generalizing k with
  | zero => rfl
  | succ m ih =>
    rw [List.replicate_succ, List.foldl_cons]
    show List.foldl bumpKey [([], k + 1)] (List.replicate m []) = _
    rw [ih (k + 1)]
    have harith : k + 1 + m = k + (m + 1) := by omega
    rw [harith]

/-- C6 amended: a non-positive q-gram length is not rejected — with
`q = 0` the profile of any non-empty string is the single empty gram
counted `len + 1` times, and the cosine computes from these degenerate
profiles instead of failing. -/
theorem C6_amended_zero_q_profile (s : String) (hs : s ≠ "") :
    _qgram_vec s 0 = [(([] : List Char), s.data.length + 1)] := by
  unfold _qgram_vec
  rw [if_neg hs]
  simp only [Nat.cast_zero, List.length_map, List.take_zero, List.map_const',
    List.length_range]
  have hlen : (max 0 ((s.data.length : Int) - 0 + 1)).toNat = s.data.length + 1 := by
    omega
  rw [hlen, List.replicate_succ, List.foldl_cons]
  show List.foldl bumpKey [([], 1)] (List.replicate s.data.length []) = _
  rw [foldl_bumpKey_empty_grams]
  simp [Nat.add_comm]

/-- C6 witness: the amended statement evaluated at a concrete input. -/
theorem C6_amended_witness : _qgram_vec "AB" 0 = [(([] : List Char), 3)] := by
  have h := C6_amended_zero_q_profile "AB" (by decide)
  simpa using h

/-- C6 counterexample: a call with `q = 0` is not rejected at the call
boundary — it completes normally and even returns full similarity `100`
for the disjoint strings `"AB"` and `"CD"`. -/
theorem C6_cex_zero_q_not_rejected :
    cosine_qgrams ratSqrt "AB" "CD" 0 = 100 := by
  have h1 : _qgram_vec "AB" 0 = [(([] : List Char), (3 : Nat))] := by decide
  have h2 : _qgram_vec "CD" 0 = [(([] : List Char), (3 : Nat))] := by decide
  have hq : ratSqrt 9 = 3 := by
    have hnum : natSqrtFind (9 : ℚ).num.toNat = 3 := by decide
    have hden : natSqrtFind (9 : ℚ).den = 1 := by decide
    simp only [ratSqrt]
    rw [hnum, hden]
    norm_num
  have hn : cosNorm ratSqrt [(([] : List Char), (3 : Nat))] = 3 := by
    have hsum : (([(([] : List Char), (3 : Nat))] : List (List Char × Nat)).map
        (fun kv => ((kv.2 : ℚ) * (kv.2 : ℚ)))).sum = 9 := by
      norm_num
    simp only [cosNorm]
    rw [hsum, hq]
  have hd : cosDot [(([] : List Char), (3 : Nat))] [(([] : List Char), (3 : Nat))] = 9 := by
    have hk : ((([(([] : List Char), (3 : Nat))] : List (List Char × Nat)).map Prod.fst
        ++ ([(([] : List Char), (3 : Nat))] : List (List Char × Nat)).map Prod.fst).dedup)
        = [([] : List Char)] := by
      decide
    have hc : getCount [(([] : List Char), (3 : Nat))] [] = 3 := by decide
    simp only [cosDot]
    rw [hk, List.map_singleton, hc]
    norm_num
  simp only [cosine_qgrams, h1, h2, _cosine_counts]
  simp only [hn, hd]
  norm_num

/-- C7. Every division of the metric suite and the gate has a non-zero
divisor: the Jaccard union divisor is positive by its explicit guard;
`_cosine_counts` either returns `0` through a guard or divides by the
product of two non-zero norms; and `length_prefilter` divides by `lmax`
only after the `lmax ≤ 3` early-return has ruled out `lmax = 0`. -/
theorem C7_no_division_by_zero :
    (∀ A B : Finset String, jaccard_union_div A B ≠ 0)
    ∧ (∀ (sq : ℚ → ℚ) (a b : List (List Char × Nat)),
        _cosine_counts sq a b = 0
        ∨ (cosNorm sq a * cosNorm sq b ≠ 0
            ∧ _cosine_counts sq a b = cosDot a b / (cosNorm sq a * cosNorm sq b)))
    ∧ (∀ (base_abs : Nat) (rel_long : ℚ) (len_a len_b : Nat),
        (max len_a len_b ≤ 3 ∧ length_prefilter base_abs rel_long len_a len_b = false)
        ∨ (((max len_a len_b : Nat) : ℚ) ≠ 0)) := by
  refine ⟨?_, ?_, ?_⟩
  · intro A B
    unfold jaccard_union_div
    by_cases h : A ≠ ∅ ∨ B ≠ ∅
    · rw [if_pos h]
      intro hcard
      rw [Finset.card_eq_zero, Finset.union_eq_empty] at hcard
      rcases h with h | h
      · exact h hcard.1
      · exact h hcard.2
    · rw [if_neg h]; exact one_ne_zero
  · intro sq a b
    unfold _cosine_counts
    by_cases h1 : a = [] ∨ b = []
    · left; rw [if_pos h1]
    · rw [if_neg h1]
      by_cases h2 : cosNorm sq a = 0 ∨ cosNorm sq b = 0
      · left; simp only [if_pos h2]
      · right
        push_neg at h2
        exact ⟨mul_ne_zero h2.1 h2.2, by simp only [if_neg (not_or.mpr h2)]⟩
  · intro base_abs rel_long len_a len_b
    by_cases h : max len_a len_b ≤ 3
    · left
      refine ⟨h, ?_⟩
      unfold length_prefilter
      simp [h]
    · right
      exact Nat.cast_ne_zero.mpr (by omega)

/-- C7 witness: the three guards evaluated at concrete inputs. -/
theorem C7_witness :
    jaccard_union_div ∅ ∅ ≠ 0
    ∧ (_cosine_counts ratSqrt [] [] = 0
        ∨ (cosNorm ratSqrt [] * cosNorm ratSqrt [] ≠ 0
            ∧ _cosine_counts ratSqrt [] [] = cosDot [] [] / (cosNorm ratSqrt [] * cosNorm ratSqrt [])))
    ∧ ((max 2 1 ≤ 3 ∧ length_prefilter 5 0.5 2 1 = false) ∨ (((max 2 1 : Nat) : ℚ) ≠ 0)) :=
  ⟨C7_no_division_by_zero.1 ∅ ∅,
   C7_no_division_by_zero.2.1 ratSqrt [] [],
   C7_no_division_by_zero.2.2 5 0.5 2 1⟩

/-- C1. When the gate has not fired, the verdict is SAME exactly on the
three-rule disjunction, DIFFERENT exactly when the SAME rule fails and
both `jw` and `ts` are below 85, INDETERMINATE otherwise, and the
aggregate score is `0.4*jw + 0.4*ts + 0.2*cq`; the Jaccard value enters
the SAME rule only, never the score. -/
theorem C1_classifier_rules (sq : ℚ → ℚ) (jw ts : ℚ) (ops : List Opcode) (a b : String)
    (hgate : length_prefilter 5 0.5 (soft_std a).length (soft_std b).length = false) :
    ((score_y_clase sq jw ts ops a b).2.1 = SAME ↔
      ((93 ≤ jw ∧ 93 ≤ ts)
        ∨ (95 ≤ ts ∧ 92 ≤ cosine_qgrams sq (soft_std a) (soft_std b) 3)
        ∨ (90 ≤ jw ∧ 75 ≤ jaccard_similarity (soft_std a) (soft_std b))))
    ∧ ((score_y_clase sq jw ts ops a b).2.1 = DIFFERENT ↔
      (¬((93 ≤ jw ∧ 93 ≤ ts)
          ∨ (95 ≤ ts ∧ 92 ≤ cosine_qgrams sq (soft_std a) (soft_std b) 3)
          ∨ (90 ≤ jw ∧ 75 ≤ jaccard_similarity (soft_std a) (soft_std b)))
        ∧ (jw < 85 ∧ ts < 85)))
    ∧ ((score_y_clase sq jw ts ops a b).2.1 = INDETERMINATE ↔
      (¬((93 ≤ jw ∧ 93 ≤ ts)
          ∨ (95 ≤ ts ∧ 92 ≤ cosine_qgrams sq (soft_std a) (soft_std b) 3)
          ∨ (90 ≤ jw ∧ 75 ≤ jaccard_similarity (soft_std a) (soft_std b)))
        ∧ ¬(jw < 85 ∧ ts < 85)))
    ∧ (score_y_clase sq jw ts ops a b).1
        = 0.4 * jw + 0.4 * ts + 0.2 * cosine_qgrams sq (soft_std a) (soft_std b) 3 := by
  simp only [score_y_clase, hgate, Bool.false_eq_true, if_false]
  by_cases hsame : (93 ≤ jw ∧ 93 ≤ ts)
      ∨ (95 ≤ ts ∧ 92 ≤ cosine_qgrams sq (soft_std a) (soft_std b) 3)
      ∨ (90 ≤ jw ∧ 75 ≤ jaccard_similarity (soft_std a) (soft_std b))
  · simp [hsame, SAME, DIFFERENT, INDETERMINATE]
  · by_cases hdiff : jw < 85 ∧ ts < 85
    · simp [hsame, hdiff, SAME, DIFFERENT, INDETERMINATE]
    · simp [hsame, hdiff, SAME, DIFFERENT, INDETERMINATE]

/-- C1 witness: a pair with an unfired gate classified SAME through the
first rule. -/
theorem C1_witness : (score_y_clase id 93 93 [] "" "").2.1 = SAME := by
  have h := C1_classifier_rules id 93 93 [] "" "" (by decide)
  exact h.1.mpr (Or.inl ⟨by norm_num, by norm_num⟩)

/-- C2. When the soft-normalized lengths satisfy the gate condition —
`lmax > 3`, absolute gap above `max(5, round(0.20*lmax))`, relative gap
above `0.40` (or `0.50` from `lmax ≥ 10`) — the engine short-circuits to
score `0`, verdict DIFFERENT and an empty conflict list before any
metric is computed; and with `lmax ≤ 3` the gate never rejects. -/
theorem C2_gate_short_circuit (sq : ℚ → ℚ) (jw ts : ℚ) (ops : List Opcode) (a b : String) :
    ((3 < max (soft_std a).length (soft_std b).length
      → max 5 ((2 * max (soft_std a).length (soft_std b).length + 5) / 10)
          < max (soft_std a).length (soft_std b).length
            - min (soft_std a).length (soft_std b).length
      → (if max (soft_std a).length (soft_std b).length < 10 then (0.40 : ℚ) else 0.5)
          < ((max (soft_std a).length (soft_std b).length
              - min (soft_std a).length (soft_std b).length : Nat) : ℚ)
            / ((max (soft_std a).length (soft_std b).length : Nat) : ℚ)
      → score_y_clase sq jw ts ops a b = (0, DIFFERENT, []))
    ∧ (max (soft_std a).length (soft_std b).length ≤ 3
        → length_prefilter 5 0.5 (soft_std a).length (soft_std b).length = false)) := by
  constructor
  · intro h1 h2 h3
    have hg : length_prefilter 5 0.5 (soft_std a).length (soft_std b).length = true := by
      simp only [length_prefilter]
      rw [if_neg (by omega)]
      simp only [Bool.and_eq_true, decide_eq_true_eq]
      exact ⟨h2, h3⟩
    simp [score_y_clase, hg]
  · intro h
    simp [length_prefilter, h]

/-- C2 witness: the spec's scenario 3 shape — a one-letter name against
a long name — fires the gate. -/
theorem C2_witness :
    score_y_clase ratSqrt 0 0 [] "X" "AAAAAAAAAAAAAAAA" = (0, DIFFERENT, []) := by
  apply (C2_gate_short_circuit ratSqrt 0 0 [] "X" "AAAAAAAAAAAAAAAA").1
  · decide
  · decide
  · have e1 : (soft_std "X").length = 0 := by decide
    have e2 : (soft_std "AAAAAAAAAAAAAAAA").length = 16 := by decide
    rw [e1, e2]
    have e3 : max (0 : Nat) 16 = 16 := by decide
    have e4 : min (0 : Nat) 16 = 0 := by decide
    rw [e3, e4]
    norm_num

theorem conflicting_characters_all_equal (ops : List Opcode)
    (h : ∀ op ∈ ops, op.tag = DiffTag.equal) :
    conflicting_characters ops = [] := by
  unfold conflicting_characters
  have hnil : ops.flatMap expandOpcode = [] :=
    List.flatMap_eq_nil_iff.mpr (fun op hop => by simp [expandOpcode, h op hop])
  rw [hnil]
  rfl

/-- C8. The conflict list of a comparison is non-empty only for a SAME
verdict; any DIFFERENT or INDETERMINATE result — the gate short-circuit
included — carries an empty conflict list; and when every opcode of the
edit script is `equal` (as for two identical original strings) the list
is empty even for SAME. -/
theorem C8_conflicts_only_for_same (sq : ℚ → ℚ) (jw ts : ℚ) (ops : List Opcode) (a b : String) :
    ((score_y_clase sq jw ts ops a b).2.2 ≠ []
      → (score_y_clase sq jw ts ops a b).2.1 = SAME)
    ∧ ((score_y_clase sq jw ts ops a b).2.1 = DIFFERENT
        ∨ (score_y_clase sq jw ts ops a b).2.1 = INDETERMINATE
      → (score_y_clase sq jw ts ops a b).2.2 = [])
    ∧ ((∀ op ∈ ops, op.tag = DiffTag.equal)
      → (score_y_clase sq jw ts ops a b).2.2 = []) := by
  by_cases hg : length_prefilter 5 0.5 (soft_std a).length (soft_std b).length = true
  · simp [score_y_clase, hg]
  · simp only [Bool.not_eq_true] at hg
    simp only [score_y_clase, hg, Bool.false_eq_true, if_false]
    by_cases hsame : (93 ≤ jw ∧ 93 ≤ ts)
        ∨ (95 ≤ ts ∧ 92 ≤ cosine_qgrams sq (soft_std a) (soft_std b) 3)
        ∨ (90 ≤ jw ∧ 75 ≤ jaccard_similarity (soft_std a) (soft_std b))
    · refine ⟨fun _ => by simp [hsame], fun hc => ?_, fun hall => ?_⟩
      · rcases hc with hc | hc <;> simp [hsame, SAME, DIFFERENT, INDETERMINATE] at hc
      · simp [hsame, conflicting_characters_all_equal ops hall]
    · by_cases hdiff : jw < 85 ∧ ts < 85
      · simp [hsame, hdiff, SAME, DIFFERENT, INDETERMINATE]
      · simp [hsame, hdiff, SAME, DIFFERENT, INDETERMINATE]

/-- C8 witness: an empty conflict list obtained from a DIFFERENT
verdict. -/
theorem C8_witness : (score_y_clase id 0 0 [] "" "").2.2 = [] :=
  (C8_conflicts_only_for_same id 0 0 [] "" "").2.1 (Or.inl (by decide))

theorem toNat_ofNat_valid (m : Nat) (h : m < 55296) : (Char.ofNat m).toNat = m := by
  rw [Char.ofNat, dif_pos (Or.inl h)]
  rfl

theorem pyUpper_toNat (c : Char) :
    (pyUpper c).toNat = if 97 ≤ c.toNat ∧ c.toNat ≤ 122 then c.toNat - 32 else c.toNat := by
  unfold pyUpper
  split_ifs with h
  · exact toNat_ofNat_valid _ (by omega)
  · rfl

theorem pyUpper_not_lower (c : Char) :
    ¬(97 ≤ (pyUpper c).toNat ∧ (pyUpper c).toNat ≤ 122) := by
  rw [pyUpper_toNat]
  split_ifs with h <;> omega

theorem pyUpper_idem (c : Char) : pyUpper (pyUpper c) = pyUpper c := by
  show (if 97 ≤ (pyUpper c).toNat ∧ (pyUpper c).toNat ≤ 122
    then Char.ofNat ((pyUpper c).toNat - 32) else pyUpper c) = pyUpper c
  rw [if_neg (pyUpper_not_lower c)]

/-- Character cleanliness invariant for every character of a final token:
ASCII, not whitespace, not stripped punctuation, not an ampersand, and a
fixed point of upper-casing. -/
def cleanChar (c : Char) : Bool :=
  decide (c.toNat < 128) && !isSpaceChar c && !isPunctStrip c
    && decide (c.toNat ≠ 38) && decide (pyUpper c = c)

theorem cleanChar_iff (c : Char) :
    cleanChar c = true ↔ (c.toNat < 128 ∧ isSpaceChar c = false ∧ isPunctStrip c = false
      ∧ c.toNat ≠ 38 ∧ pyUpper c = c) := by
  simp [cleanChar]
  tauto

theorem isSpaceChar_false_of_toNat (c : Char)
    (h : c.toNat ≠ 32 ∧ c.toNat ≠ 9 ∧ c.toNat ≠ 10 ∧ c.toNat ≠ 11 ∧ c.toNat ≠ 12
      ∧ c.toNat ≠ 13) : isSpaceChar c = false := by
  simp [isSpaceChar]
  omega

theorem isPunctStrip_false_of_toNat (c : Char)
    (h : c.toNat ≠ 46 ∧ c.toNat ≠ 44 ∧ c.toNat ≠ 40 ∧ c.toNat ≠ 41 ∧ c.toNat ≠ 34
      ∧ c.toNat ≠ 39) : isPunctStrip c = false := by
  simp [isPunctStrip]
  omega

theorem isSpaceChar_toNat_of_eq_true (c : Char) (h : isSpaceChar c = true) :
    c.toNat = 32 ∨ c.toNat = 9 ∨ c.toNat = 10 ∨ c.toNat = 11 ∨ c.toNat = 12
      ∨ c.toNat = 13 := by
  have h2 := h
  simp [isSpaceChar] at h2
  tauto

theorem isSpaceChar_false_toNat (c : Char) (h : isSpaceChar c = false) :
    c.toNat ≠ 32 ∧ c.toNat ≠ 9 ∧ c.toNat ≠ 10 ∧ c.toNat ≠ 11 ∧ c.toNat ≠ 12
      ∧ c.toNat ≠ 13 := by
  have h2 := h
  simp [isSpaceChar] at h2
  tauto

theorem isPunctStrip_false_toNat (c : Char) (h : isPunctStrip c = false) :
    c.toNat ≠ 46 ∧ c.toNat ≠ 44 ∧ c.toNat ≠ 40 ∧ c.toNat ≠ 41 ∧ c.toNat ≠ 34
      ∧ c.toNat ≠ 39 := by
  have h2 := h
  simp [isPunctStrip] at h2
  tauto

/-- Upper-casing a character that is ASCII, non-blank, non-punctuation
and not an ampersand yields a clean character. -/
theorem cleanChar_pyUpper (c : Char) (ha : c.toNat < 128) (hs : isSpaceChar c = false)
    (hp : isPunctStrip c = false) (hamp : c.toNat ≠ 38) : cleanChar (pyUpper c) = true := by
  have hs' := isSpaceChar_false_toNat c hs
  have hp' := isPunctStrip_false_toNat c hp
  have ht := pyUpper_toNat c
  rw [cleanChar_iff]
  refine ⟨?_, ?_, ?_, ?_, pyUpper_idem c⟩
  · rw [ht]; split_ifs with h <;> omega
  · refine isSpaceChar_false_of_toNat _ ?_
    rw [ht]; split_ifs with h <;> omega
  · refine isPunctStrip_false_of_toNat _ ?_
    rw [ht]; split_ifs with h <;> omega
  · rw [ht]; split_ifs with h <;> omega

theorem cleanChar_space_or (c : Char) (h : cleanChar c = true ∨ c.toNat = 32) :
    c.toNat < 128 ∧ isPunctStrip c = false ∧ c.toNat ≠ 38 ∧ c.toNat ≠ 216
      ∧ c.toNat ≠ 248 ∧ pyUpper c = c ∧ asciiFold c = [c] := by
  have base : c.toNat < 128 ∧ isPunctStrip c = false ∧ c.toNat ≠ 38 ∧ pyUpper c = c := by
    rcases h with h | h
    · rw [cleanChar_iff] at h
      exact ⟨h.1, h.2.2.1, h.2.2.2.1, h.2.2.2.2⟩
    · refine ⟨by omega, isPunctStrip_false_of_toNat _ (by omega), by omega, ?_⟩
      show (if 97 ≤ c.toNat ∧ c.toNat ≤ 122 then Char.ofNat (c.toNat - 32) else c) = c
      rw [if_neg (by omega)]
  refine ⟨base.1, base.2.1, base.2.2.1, by omega, by omega, base.2.2.2, ?_⟩
  show asciiFold c = [c]
  unfold asciiFold
  rw [if_pos base.1]

theorem wsTokensAux_cons_nonspace (c : Char) (cs acc : List Char)
    (hc : isSpaceChar c = false) :
    wsTokensAux (c :: cs) acc = wsTokensAux cs (c :: acc) := by
  show (if isSpaceChar c then (if acc.isEmpty then [] else [acc.reverse]) ++ wsTokensAux cs []
    else wsTokensAux cs (c :: acc)) = wsTokensAux cs (c :: acc)
  rw [hc]
  simp

theorem wsTokensAux_cons_space (c : Char) (cs acc : List Char)
    (hc : isSpaceChar c = true) :
    wsTokensAux (c :: cs) acc
      = (if acc.isEmpty then [] else [acc.reverse]) ++ wsTokensAux cs [] := by
  show (if isSpaceChar c then (if acc.isEmpty then [] else [acc.reverse]) ++ wsTokensAux cs []
    else wsTokensAux cs (c :: acc))
    = (if acc.isEmpty then [] else [acc.reverse]) ++ wsTokensAux cs []
  rw [hc]
  simp

theorem wsTokensAux_run_start :
    ∀ (t cs acc : List Char), (∀ c ∈ t, isSpaceChar c = false) →
      wsTokensAux (t ++ cs) acc = wsTokensAux cs (t.reverse ++ acc) := by
  intro t
  induction t with
  | nil => intro cs acc _; simp
  | cons c t ih =>
    intro cs acc ht
    have hc : isSpaceChar c = false := ht c (by simp)
    rw [List.cons_append, wsTokensAux_cons_nonspace c (t ++ cs) acc hc,
      ih cs (c :: acc) (fun x hx => ht x (by simp [hx]))]
    simp [List.reverse_cons, List.append_assoc]

theorem wsTokens_joinSp (toks : List (List Char))
    (h : ∀ t ∈ toks, t ≠ [] ∧ ∀ c ∈ t, isSpaceChar c = false) :
    wsTokens (joinSp toks) = toks := by
  induction toks with
  | nil => rfl
  | cons t ts ih =>
    have hne : t ≠ [] := (h t (by simp)).1
    have hnw : ∀ c ∈ t, isSpaceChar c = false := (h t (by simp)).2
    cases ts with
    | nil =>
      show wsTokensAux t [] = [t]
      have hpre := wsTokensAux_run_start t [] [] hnw
      rw [List.append_nil] at hpre
      rw [hpre]
      show (if (t.reverse ++ []).isEmpty then []
        else [(t.reverse ++ []).reverse]) = [t]
      rw [if_neg (by simp [List.isEmpty_iff, hne])]
      simp
    | cons t2 ts2 =>
      show wsTokensAux (t ++ ' ' :: joinSp (t2 :: ts2)) [] = t :: t2 :: ts2
      rw [wsTokensAux_run_start t _ [] hnw]
      show (if (t.reverse ++ []).isEmpty then []
          else [(t.reverse ++ []).reverse]) ++ wsTokensAux (joinSp (t2 :: ts2)) []
        = t :: t2 :: ts2
      rw [if_neg (by simp [List.isEmpty_iff, hne])]
      have := ih (fun u hu => h u (by simp [hu]))
      simp only [wsTokens] at this
      rw [this]
      simp

theorem mem_joinSp :
    ∀ (toks : List (List Char)) (c : Char), c ∈ joinSp toks →
      (∃ t ∈ toks, c ∈ t) ∨ c = ' ' := by
  intro toks
  induction toks with
  | nil => intro c hc; simp [joinSp] at hc
  | cons t ts ih =>
    intro c hc
    cases ts with
    | nil => exact Or.inl ⟨t, by simp, hc⟩
    | cons t2 ts2 =>
      rw [show joinSp (t :: t2 :: ts2) = t ++ ' ' :: joinSp (t2 :: ts2) from rfl] at hc
      rcases List.mem_append.mp hc with h | h
      · exact Or.inl ⟨t, by simp, h⟩
      · rcases List.mem_cons.mp h with h | h
        · exact Or.inr h
        · rcases ih c h with ⟨u, hu, hcu⟩ | h
          · exact Or.inl ⟨u, by simp [hu], hcu⟩
          · exact Or.inr h

theorem joinSp_ne_nil (t : List Char) (ts : List (List Char)) (hne : t ≠ []) :
    joinSp (t :: ts) ≠ [] := by
  cases ts with
  | nil => exact hne
  | cons t2 ts2 =>
    show t ++ ' ' :: joinSp (t2 :: ts2) ≠ []
    simp

theorem wsTokensAux_tokens_prop :
    ∀ (cs acc : List Char), (∀ c ∈ acc, isSpaceChar c = false) →
      ∀ t ∈ wsTokensAux cs acc,
        t ≠ [] ∧ ∀ c ∈ t, isSpaceChar c = false ∧ (c ∈ cs ∨ c ∈ acc) := by
  intro cs
  induction cs with
  | nil =>
    intro acc hacc t ht
    rw [show wsTokensAux [] acc = if acc.isEmpty then [] else [acc.reverse] from rfl] at ht
    by_cases he : acc.isEmpty
    · rw [if_pos he] at ht; simp at ht
    · rw [if_neg he] at ht
      simp only [List.mem_singleton] at ht
      subst ht
      refine ⟨by simp [List.isEmpty_iff] at he; simp [he], fun c hc => ?_⟩
      have hca : c ∈ acc := List.mem_reverse.mp hc
      exact ⟨hacc c hca, Or.inr hca⟩
  | cons d cs ih =>
    intro acc hacc t ht
    by_cases hd : isSpaceChar d = true
    · rw [wsTokensAux_cons_space d cs acc hd] at ht
      rcases List.mem_append.mp ht with h | h
      · by_cases he : acc.isEmpty
        · rw [if_pos he] at h; simp at h
        · rw [if_neg he] at h
          simp only [List.mem_singleton] at h
          subst h
          refine ⟨by simp [List.isEmpty_iff] at he; simp [he], fun c hc => ?_⟩
          have hca : c ∈ acc := List.mem_reverse.mp hc
          exact ⟨hacc c hca, Or.inr hca⟩
      · have hrec := ih [] (by simp) t h
        refine ⟨hrec.1, fun c hc => ⟨(hrec.2 c hc).1, ?_⟩⟩
        rcases (hrec.2 c hc).2 with h2 | h2
        · exact Or.inl (by simp [h2])
        · simp at h2
    · have hd' : isSpaceChar d = false := by simpa using hd
      rw [wsTokensAux_cons_nonspace d cs acc hd'] at ht
      have hacc' : ∀ c ∈ d :: acc, isSpaceChar c = false := by
        intro c hc
        rcases List.mem_cons.mp hc with h | h
        · rw [h]; exact hd'
        · exact hacc c h
      have hrec := ih (d :: acc) hacc' t ht
      refine ⟨hrec.1, fun c hc => ⟨(hrec.2 c hc).1, ?_⟩⟩
      rcases (hrec.2 c hc).2 with h2 | h2
      · exact Or.inl (by simp [h2])
      · rcases List.mem_cons.mp h2 with h3 | h3
        · exact Or.inl (by simp [h3])
        · exact Or.inr h3

theorem wsTokens_tokens_prop (cs : List Char) :
    ∀ t ∈ wsTokens cs, t ≠ [] ∧ ∀ c ∈ t, isSpaceChar c = false ∧ c ∈ cs := by
  intro t ht
  have h := wsTokensAux_tokens_prop cs [] (by simp) t ht
  refine ⟨h.1, fun c hc => ⟨(h.2 c hc).1, ?_⟩⟩
  rcases (h.2 c hc).2 with h2 | h2
  · exact h2
  · simp at h2

theorem asciiFold_ascii (d c : Char) (h : c ∈ asciiFold d) : c.toNat < 128 := by
  by_cases hd : d.toNat < 128
  · unfold asciiFold at h
    rw [if_pos hd] at h
    simp only [List.mem_singleton] at h
    subst h
    exact hd
  · unfold asciiFold at h
    rw [if_neg hd] at h
    cases hf : foldTable.find? (fun kv => kv.1 = d.toNat) with
    | none => rw [hf] at h; simp at h
    | some kv =>
      rw [hf] at h
      simp only [List.mem_singleton] at h
      subst h
      have hkv : kv ∈ foldTable := List.mem_of_find?_eq_some hf
      have hall : ∀ kv2 ∈ foldTable, kv2.2.toNat < 128 := by decide
      exact hall kv hkv

theorem asciiFold_ascii_fix (c : Char) (h : c.toNat < 128) : asciiFold c = [c] := by
  unfold asciiFold
  rw [if_pos h]

theorem foldChars_ascii (cs : List Char) : ∀ c ∈ foldChars cs, c.toNat < 128 := by
  intro c hc
  rcases List.mem_flatMap.mp hc with ⟨d, _, hcd⟩
  exact asciiFold_ascii d c hcd

theorem replaceSimple_chars (cs : List Char) (hin : ∀ c ∈ cs, c.toNat < 128) :
    ∀ c ∈ replaceSimple cs, c.toNat < 128 ∧ c.toNat ≠ 38 := by
  intro c hc
  unfold replaceSimple at hc
  rcases List.mem_flatMap.mp hc with ⟨d, hd, hcd⟩
  have hd128 : d.toNat < 128 := by
    rcases List.mem_map.mp hd with ⟨e, he, hde⟩
    rcases List.mem_map.mp he with ⟨e0, he0, he0e⟩
    have h0 : e0.toNat < 128 := hin e0 he0
    have h1 : e.toNat < 128 := by
      subst he0e
      split_ifs with h216
      · decide
      · exact h0
    subst hde
    split_ifs with h248
    · decide
    · exact h1
  by_cases h38 : d.toNat = 38
  · rw [if_pos h38] at hcd
    rcases List.mem_cons.mp hcd with h | h
    · subst h; decide
    · rcases List.mem_cons.mp h with h | h
      · subst h; decide
      · simp only [List.mem_singleton] at h; subst h; decide
  · rw [if_neg h38] at hcd
    simp only [List.mem_singleton] at hcd
    subst hcd
    exact ⟨hd128, h38⟩

theorem stripPunct_chars (cs : List Char) (hin : ∀ c ∈ cs, c.toNat < 128 ∧ c.toNat ≠ 38) :
    ∀ c ∈ stripPunct cs, c.toNat < 128 ∧ c.toNat ≠ 38 ∧ isPunctStrip c = false := by
  intro c hc
  unfold stripPunct at hc
  rcases List.mem_map.mp hc with ⟨d, hd, hdc⟩
  subst hdc
  by_cases hp : isPunctStrip d = true
  · rw [if_pos hp]
    refine ⟨by decide, by decide, by decide⟩
  · have hp' : isPunctStrip d = false := by simpa using hp
    rw [if_neg (by simp [hp'])]
    exact ⟨(hin d hd).1, (hin d hd).2, hp'⟩

/-- Every token the normalizer produces (before filtering) is non-empty
and consists of clean characters. -/
theorem pipelineToks_clean (t : String) :
    ∀ tk ∈ pipelineToks t, tk.data ≠ [] ∧ ∀ c ∈ tk.data, cleanChar c = true := by
  intro tk htk
  rcases List.mem_map.mp htk with ⟨l, hl, hmk⟩
  subst hmk
  have hprop := wsTokens_tokens_prop (pipelineChars t) l hl
  refine ⟨hprop.1, fun c hc => ?_⟩
  have hnw : isSpaceChar c = false := (hprop.2 c hc).1
  have hcin : c ∈ pipelineChars t := (hprop.2 c hc).2
  unfold pipelineChars upperChars at hcin
  rcases List.mem_map.mp hcin with ⟨c0, hc0, hcc⟩
  subst hcc
  have hs4 : ∀ x ∈ stripPunct (replaceSimple (foldChars t.data)),
      x.toNat < 128 ∧ x.toNat ≠ 38 ∧ isPunctStrip x = false :=
    stripPunct_chars _ (replaceSimple_chars _ (foldChars_ascii _))
  unfold collapseWs at hc0
  rcases mem_joinSp _ c0 hc0 with ⟨u, hu, hcu⟩ | hsp
  · have hu' := wsTokens_tokens_prop _ u hu
    have hc0nw : isSpaceChar c0 = false := (hu'.2 c0 hcu).1
    have hfacts := hs4 c0 ((hu'.2 c0 hcu).2)
    exact cleanChar_pyUpper c0 hfacts.1 hc0nw hfacts.2.2 hfacts.2.1
  · exfalso
    subst hsp
    rw [show pyUpper ' ' = ' ' from by decide] at hnw
    simp [isSpaceChar] at hnw

theorem condFilter_subset (b : Bool) (p : String → Bool) (l : List String) :
    ∀ x ∈ (if b then l.filter p else l), x ∈ l := by
  intro x h
  cases b
  · simpa using h
  · exact List.mem_of_mem_filter (by simpa using h)

theorem applyFilters_subset (merc stop one : Bool) (toks : List String) :
    ∀ tk ∈ applyFilters merc stop one toks, tk ∈ toks := by
  intro tk h
  simp only [applyFilters] at h
  exact condFilter_subset merc _ toks tk
    (condFilter_subset stop _ _ tk (condFilter_subset one _ _ tk h))

theorem applyFilters_mem_props (merc stop one : Bool) (toks : List String) :
    ∀ tk ∈ applyFilters merc stop one toks,
      (merc = true → tk ∉ MERCANTILES_O_INST)
      ∧ (stop = true → tk ∉ STOPWORDS)
      ∧ (one = true → 1 < tk.length) := by
  intro tk h
  simp only [applyFilters] at h
  have h2 := condFilter_subset one _ _ tk h
  have h1 := condFilter_subset stop _ _ tk h2
  refine ⟨?_, ?_, ?_⟩
  · intro hm
    subst hm
    have := (List.mem_filter.mp h1).2
    simpa using this
  · intro hs
    subst hs
    have := (List.mem_filter.mp h2).2
    simpa using this
  · intro ho
    subst ho
    have := (List.mem_filter.mp h).2
    simpa using this

theorem applyFilters_stable (merc stop one : Bool) (toks : List String)
    (h : ∀ tk ∈ toks, (merc = true → tk ∉ MERCANTILES_O_INST)
      ∧ (stop = true → tk ∉ STOPWORDS) ∧ (one = true → 1 < tk.length)) :
    applyFilters merc stop one toks = toks := by
  simp only [applyFilters]
  have h1 : (if merc then toks.filter (fun tk => !(decide (tk ∈ MERCANTILES_O_INST)))
      else toks) = toks := by
    cases merc
    · rfl
    · exact (if_pos rfl).trans
        (List.filter_eq_self.mpr (fun tk htk => by simp [(h tk htk).1 rfl]))
  rw [h1]
  have h2 : (if stop then toks.filter (fun tk => !(decide (tk ∈ STOPWORDS)))
      else toks) = toks := by
    cases stop
    · rfl
    · exact (if_pos rfl).trans
        (List.filter_eq_self.mpr (fun tk htk => by simp [(h tk htk).2.1 rfl]))
  rw [h2]
  cases one
  · rfl
  · exact (if_pos rfl).trans
      (List.filter_eq_self.mpr (fun tk htk => by simp [(h tk htk).2.2 rfl]))

theorem flatMap_id_of (l : List Char) (f : Char → List Char)
    (h : ∀ c ∈ l, f c = [c]) : l.flatMap f = l := by
  induction l with
  | nil => rfl
  | cons c cs ih =>
    rw [List.flatMap_cons, h c (by simp), ih (fun x hx => h x (by simp [hx]))]
    rfl

theorem map_id_of (l : List Char) (f : Char → Char)
    (h : ∀ c ∈ l, f c = c) : l.map f = l :=
  (List.map_congr_left h).trans (List.map_id l)

/-- The result of `_estandarizar_texto` on a present string, spelled out. -/
theorem estandarizar_some_eq (t : String) (esp stop merc one : Bool) :
    _estandarizar_texto (some t) esp stop merc one
      = some (String.mk (if esp
          then (joinSp ((applyFilters merc stop one (pipelineToks t)).map
            String.data)).filter (fun c => decide (c ≠ ' '))
          else joinSp ((applyFilters merc stop one (pipelineToks t)).map
            String.data))) := rfl

/-- Re-tokenizing the space-joined list of clean tokens recovers exactly
those tokens: the heart of the idempotence argument. -/
theorem pipelineToks_of_clean_join (toks : List String)
    (h : ∀ tk ∈ toks, tk.data ≠ [] ∧ ∀ c ∈ tk.data, cleanChar c = true) :
    pipelineToks (String.mk (joinSp (toks.map String.data))) = toks := by
  have hmem : ∀ c ∈ joinSp (toks.map String.data), cleanChar c = true ∨ c.toNat = 32 := by
    intro c hc
    rcases mem_joinSp _ c hc with ⟨u, hu, hcu⟩ | hsp
    · rcases List.mem_map.mp hu with ⟨tk, htk, hud⟩
      exact Or.inl ((h tk htk).2 c (hud ▸ hcu))
    · right; rw [hsp]; rfl
  have hJ := fun c hc => cleanChar_space_or c (hmem c hc)
  unfold pipelineToks pipelineChars
  rw [show (String.mk (joinSp (toks.map String.data))).data
    = joinSp (toks.map String.data) from rfl]
  rw [show foldChars (joinSp (toks.map String.data)) = joinSp (toks.map String.data)
    from flatMap_id_of _ _ (fun c hc => (hJ c hc).2.2.2.2.2.2)]
  rw [show replaceSimple (joinSp (toks.map String.data)) = joinSp (toks.map String.data) by
    unfold replaceSimple
    rw [show (joinSp (toks.map String.data)).map (fun c => if c.toNat = 216 then 'O' else c)
        = joinSp (toks.map String.data)
      from map_id_of _ _ (fun c hc => by rw [if_neg (hJ c hc).2.2.2.1])]
    rw [show (joinSp (toks.map String.data)).map (fun c => if c.toNat = 248 then 'O' else c)
        = joinSp (toks.map String.data)
      from map_id_of _ _ (fun c hc => by rw [if_neg (hJ c hc).2.2.2.2.1])]
    exact flatMap_id_of _ _ (fun c hc => by rw [if_neg (hJ c hc).2.2.1])]
  rw [show stripPunct (joinSp (toks.map String.data)) = joinSp (toks.map String.data) by
    unfold stripPunct
    exact map_id_of _ _ (fun c hc => by simp [(hJ c hc).2.1])]
  have htoks : wsTokens (joinSp (toks.map String.data)) = toks.map String.data := by
    refine wsTokens_joinSp _ ?_
    intro u hu
    rcases List.mem_map.mp hu with ⟨tk, htk, hud⟩
    subst hud
    refine ⟨(h tk htk).1, fun c hc => ?_⟩
    have hcl := (h tk htk).2 c hc
    rw [cleanChar_iff] at hcl
    exact hcl.2.1
  rw [show collapseWs (joinSp (toks.map String.data)) = joinSp (toks.map String.data) by
    unfold collapseWs
    rw [htoks]]
  rw [show upperChars (joinSp (toks.map String.data)) = joinSp (toks.map String.data)
    from map_id_of _ _ (fun c hc => (hJ c hc).2.2.2.2.2.1)]
  rw [htoks, List.map_map]
  exact (List.map_congr_left (fun tk _ => by cases tk; rfl)).trans (List.map_id _)

/-- C3 amended: with `strip_spaces` off, normalization is idempotent for
every combination of the remaining filters, and for absent input. -/
theorem C3_amended_idempotent_strip_off (t : Option String) (stop merc one : Bool) :
    _estandarizar_texto (_estandarizar_texto t false stop merc one) false stop merc one
      = _estandarizar_texto t false stop merc one := by
  cases t with
  | none => rfl
  | some s =>
    have hclean : ∀ tk ∈ applyFilters merc stop one (pipelineToks s),
        tk.data ≠ [] ∧ ∀ c ∈ tk.data, cleanChar c = true :=
      fun tk htk => pipelineToks_clean s tk (applyFilters_subset _ _ _ _ tk htk)
    have h1 : _estandarizar_texto (some s) false stop merc one
        = some (String.mk (joinSp ((applyFilters merc stop one (pipelineToks s)).map
          String.data))) := rfl
    rw [h1]
    have h2 : _estandarizar_texto (some (String.mk (joinSp
          ((applyFilters merc stop one (pipelineToks s)).map String.data))))
          false stop merc one
        = some (String.mk (joinSp ((applyFilters merc stop one
            (pipelineToks (String.mk (joinSp ((applyFilters merc stop one
              (pipelineToks s)).map String.data))))).map String.data))) := rfl
    rw [h2, pipelineToks_of_clean_join _ hclean,
      applyFilters_stable merc stop one _
        (fun tk htk => applyFilters_mem_props merc stop one (pipelineToks s) tk htk)]

theorem char_eq_of_toNat {c d : Char} (h : c.toNat = d.toNat) : c = d := by
  rw [← Char.ofNat_toNat c, ← Char.ofNat_toNat d, h]

theorem joinSp_head?_mem (toks : List (List Char)) (hne : ∀ tk ∈ toks, tk ≠ [])
    (c : Char) (h : (joinSp toks).head? = some c) : ∃ t ∈ toks, c ∈ t := by
  cases toks with
  | nil => simp [joinSp] at h
  | cons t ts =>
    obtain ⟨x, xs, rfl⟩ : ∃ x xs, t = x :: xs := by
      cases t with
      | nil => exact absurd rfl (hne [] (by simp))
      | cons x xs => exact ⟨x, xs, rfl⟩
    cases ts with
    | nil =>
      refine ⟨x :: xs, by simp, ?_⟩
      have hc : c = x := by
        have : (x :: xs).head? = some c := h
        simpa using this.symm
      simp [hc]
    | cons t2 ts2 =>
      refine ⟨x :: xs, by simp, ?_⟩
      have hx : (joinSp ((x :: xs) :: t2 :: ts2)).head? = some x := by
        show ((x :: xs) ++ ' ' :: joinSp (t2 :: ts2)).head? = some x
        simp
      rw [h] at hx
      simp only [Option.some.injEq] at hx
      simp [hx]

theorem joinSp_getLast?_mem (toks : List (List Char)) (hne : ∀ tk ∈ toks, tk ≠ []) :
    ∀ c : Char, (joinSp toks).getLast? = some c → ∃ t ∈ toks, c ∈ t := by
  induction toks with
  | nil => intro c h; simp [joinSp] at h
  | cons t ts ih =>
    intro c h
    cases ts with
    | nil =>
      exact ⟨t, by simp, List.mem_of_getLast?_eq_some h⟩
    | cons t2 ts2 =>
      have hL : joinSp (t2 :: ts2) ≠ [] := joinSp_ne_nil t2 ts2 (hne t2 (by simp))
      obtain ⟨y, hy⟩ : ∃ y, (joinSp (t2 :: ts2)).getLast? = some y := by
        cases hgl : (joinSp (t2 :: ts2)).getLast? with
        | some y => exact ⟨y, rfl⟩
        | none => exact absurd (List.getLast?_eq_none_iff.mp hgl) hL
      have hsplit : joinSp (t :: t2 :: ts2) = t ++ ([' '] ++ joinSp (t2 :: ts2)) := by
        show t ++ ' ' :: joinSp (t2 :: ts2) = t ++ ([' '] ++ joinSp (t2 :: ts2))
        simp
      rw [hsplit, List.getLast?_append, List.getLast?_append, hy] at h
      simp only [Option.or_some] at h
      have hyc : y = c := by simpa using h
      subst hyc
      rcases ih (fun u hu => hne u (by simp [hu])) y hy with ⟨u, hu, hyu⟩
      exact ⟨u, by simp [hu], hyu⟩

/-- C10. For every present input and configuration, the normalizer's
output has only ASCII characters, no lowercase letters, none of the
stripped punctuation characters, no leading or trailing whitespace, and
— when `strip_spaces` is off — is exactly a single-space join of
non-empty whitespace-free tokens. -/
theorem C10_output_invariants (t : String) (esp stop merc one : Bool) (out : String)
    (h : _estandarizar_texto (some t) esp stop merc one = some out) :
    (∀ c ∈ out.data, c.toNat < 128)
    ∧ (∀ c ∈ out.data, ¬(97 ≤ c.toNat ∧ c.toNat ≤ 122))
    ∧ (∀ c ∈ out.data, isPunctStrip c = false)
    ∧ (∀ c : Char, out.data.head? = some c → isSpaceChar c = false)
    ∧ (∀ c : Char, out.data.getLast? = some c → isSpaceChar c = false)
    ∧ (esp = false → ∃ toks : List (List Char), out.data = joinSp toks
        ∧ ∀ tk ∈ toks, tk ≠ [] ∧ ∀ c ∈ tk, isSpaceChar c = false) := by
  have hclean : ∀ tk ∈ applyFilters merc stop one (pipelineToks t),
      tk.data ≠ [] ∧ ∀ c ∈ tk.data, cleanChar c = true :=
    fun tk htk => pipelineToks_clean t tk (applyFilters_subset _ _ _ _ tk htk)
  have hmemJ : ∀ c ∈ joinSp ((applyFilters merc stop one (pipelineToks t)).map
      String.data), cleanChar c = true ∨ c.toNat = 32 := by
    intro c hc
    rcases mem_joinSp _ c hc with ⟨u, hu, hcu⟩ | hsp
    · rcases List.mem_map.mp hu with ⟨tk, htk, hud⟩
      exact Or.inl ((hclean tk htk).2 c (hud ▸ hcu))
    · right; rw [hsp]; rfl
  have hout : out.data = (if esp
      then (joinSp ((applyFilters merc stop one (pipelineToks t)).map
        String.data)).filter (fun c => decide (c ≠ ' '))
      else joinSp ((applyFilters merc stop one (pipelineToks t)).map String.data)) := by
    have he := estandarizar_some_eq t esp stop merc one
    rw [h] at he
    have := Option.some.inj he
    rw [this]
  have hE : ∀ c ∈ out.data, cleanChar c = true ∨ c.toNat = 32 := by
    intro c hc
    rw [hout] at hc
    cases esp with
    | false => exact hmemJ c hc
    | true => exact hmemJ c (List.mem_of_mem_filter hc)
  refine ⟨?_, ?_, ?_, ?_, ?_, ?_⟩
  · intro c hc
    rcases hE c hc with hcl | h32
    · exact ((cleanChar_iff c).mp hcl).1
    · omega
  · intro c hc
    rcases hE c hc with hcl | h32
    · have hfix := ((cleanChar_iff c).mp hcl).2.2.2.2
      have := pyUpper_not_lower c
      rw [hfix] at this
      exact this
    · omega
  · intro c hc
    rcases hE c hc with hcl | h32
    · exact ((cleanChar_iff c).mp hcl).2.2.1
    · exact isPunctStrip_false_of_toNat c (by omega)
  · intro c hc
    cases esp with
    | true =>
      have hcmem : c ∈ out.data := List.mem_of_mem_head? (Option.mem_def.mpr hc)
      have hcne : c ≠ ' ' := by
        have hm2 := hcmem
        rw [hout] at hm2
        have hp := List.of_mem_filter hm2
        simpa using hp
      rcases hE c hcmem with hcl | h32
      · exact ((cleanChar_iff c).mp hcl).2.1
      · exact absurd (char_eq_of_toNat (by rw [h32]; rfl)) hcne
    | false =>
      rw [hout] at hc
      simp only [if_neg (by simp : ¬(false = true))] at hc
      have hne : ∀ tk ∈ (applyFilters merc stop one (pipelineToks t)).map String.data,
          tk ≠ [] := by
        intro tk htk
        rcases List.mem_map.mp htk with ⟨u, hu, hud⟩
        exact hud ▸ (hclean u hu).1
      rcases joinSp_head?_mem _ hne c hc with ⟨u, hu, hcu⟩
      rcases List.mem_map.mp hu with ⟨tk, htk, hud⟩
      have hcl := (hclean tk htk).2 c (hud ▸ hcu)
      exact ((cleanChar_iff c).mp hcl).2.1
  · intro c hc
    cases esp with
    | true =>
      have hcmem : c ∈ out.data := List.mem_of_getLast?_eq_some hc
      have hcne : c ≠ ' ' := by
        have hm2 := hcmem
        rw [hout] at hm2
        have hp := List.of_mem_filter hm2
        simpa using hp
      rcases hE c hcmem with hcl | h32
      · exact ((cleanChar_iff c).mp hcl).2.1
      · exact absurd (char_eq_of_toNat (by rw [h32]; rfl)) hcne
    | false =>
      rw [hout] at hc
      simp only [if_neg (by simp : ¬(false = true))] at hc
      have hne : ∀ tk ∈ (applyFilters merc stop one (pipelineToks t)).map String.data,
          tk ≠ [] := by
        intro tk htk
        rcases List.mem_map.mp htk with ⟨u, hu, hud⟩
        exact hud ▸ (hclean u hu).1
      rcases joinSp_getLast?_mem _ hne c hc with ⟨u, hu, hcu⟩
      rcases List.mem_map.mp hu with ⟨tk, htk, hud⟩
      have hcl := (hclean tk htk).2 c (hud ▸ hcu)
      exact ((cleanChar_iff c).mp hcl).2.1
  · intro hesp
    subst hesp
    refine ⟨(applyFilters merc stop one (pipelineToks t)).map String.data, ?_, ?_⟩
    · rw [hout]
      simp
    · intro tk htk
      rcases List.mem_map.mp htk with ⟨u, hu, hud⟩
      refine ⟨hud ▸ (hclean u hu).1, fun c hcc => ?_⟩
      have hcl := (hclean u hu).2 c (hud ▸ hcc)
      exact ((cleanChar_iff c).mp hcl).2.1

/-- C10 witness: the invariants instantiated at a concrete input. -/
theorem C10_witness :
    (∀ c ∈ ("A B" : String).data, c.toNat < 128)
    ∧ (∀ c ∈ ("A B" : String).data, ¬(97 ≤ c.toNat ∧ c.toNat ≤ 122))
    ∧ (∀ c ∈ ("A B" : String).data, isPunctStrip c = false)
    ∧ (∀ c : Char, ("A B" : String).data.head? = some c → isSpaceChar c = false)
    ∧ (∀ c : Char, ("A B" : String).data.getLast? = some c → isSpaceChar c = false)
    ∧ (false = false → ∃ toks : List (List Char), ("A B" : String).data = joinSp toks
        ∧ ∀ tk ∈ toks, tk ≠ [] ∧ ∀ c ∈ tk, isSpaceChar c = false) :=
  C10_output_invariants "a,b" false false false false "A B" (by decide)

end WRA
